import Mathlib

/-!
Shallow embedding of the metric resolution and transformation pipeline of
vsphere-influxdb (file `vsphere-influxdb.go`), together with proofs about it.

Modelling conventions:
* Go `int64`/`int32` values are modelled by `Int` (the counters handled by the
  program are far from the overflow range, and the spec treats them as ideal
  integers).
* Go maps are modelled by association lists with unique keys, updated in place
  by `setA` and read by `getA`; a read of an absent key yields the Go zero
  value through `Option.getD`.
* The two partial spots of the code (the unguarded division by the sample
  count in `average`, and the unguarded last-element index for `.latest`)
  are modelled by `Option`: `none` stands for the undefined/faulting case.
* Go `float64` arithmetic in `average` is modelled by exact rational
  arithmetic (`ℚ`) with `Int.floor`.
-/

namespace Vsphere

/-! ## Association-list model of Go maps -/

/-- In-place overwriting insertion into an association list (Go map write). -/
def setA {α β : Type} [DecidableEq α] : List (α × β) → α → β → List (α × β)
  | [], k, v => [(k, v)]
  | (k', v') :: m, k, v =>
    if k' = k then (k, v) :: m else (k', v') :: setA m k v

/-- Lookup in an association list (Go map read); `none` for an absent key. -/
def getA {α β : Type} [DecidableEq α] : List (α × β) → α → Option β
  | [], _ => none
  | (k', v') :: m, k => if k' = k then some v' else getA m k

/-! ## String helpers mirroring the `strings` operations used by the source -/

/-- Boolean list-prefix test (character lists). -/
def listPre : List Char → List Char → Bool
  | [], _ => true
  | _ :: _, [] => false
  | a :: as, b :: bs => a = b && listPre as bs

/-- Boolean substring (infix) test on character lists; mirrors the
`strings.Index(s, pat) != -1` idiom of the source. -/
def listSub (pat : List Char) : List Char → Bool
  | [] => pat.isEmpty
  | c :: t => listPre pat (c :: t) || listSub pat t

/-- Go `strings.Index(s, pat) != -1`, i.e. substring containment. -/
def strContains (s pat : String) : Bool :=
  listSub pat.toList s.toList

/-- Go `strings.HasSuffix(s, suf)`. -/
def strSuffix (s suf : String) : Bool :=
  listPre suf.toList.reverse s.toList.reverse

/-- Go `strings.ToLower` (character-wise lowering). -/
def strLower (s : String) : String :=
  String.mk (s.toList.map Char.toLower)

/-- Go `strings.Replace(s, ".", "_", -1)`: every dot becomes an underscore. -/
def dotToUnderscore (s : String) : String :=
  String.mk (s.toList.map (fun c => if c = '.' then '_' else c))

/-- Go `strings.Split(s, ".")[0]`: the prefix of `s` before the first dot. -/
def firstSeg (s : String) : String :=
  String.mk (s.toList.takeWhile (fun c => c ≠ '.'))

/-! ## Series reductions (source functions `min`, `max`, `sum`, `average`,
lines 556-609 of `vsphere-influxdb.go`) -/

/-- Loop body of source `min`: ignore negative samples; a running value of -1
means "no sample seen yet". -/
def minStep (m i : Int) : Int :=
  if 0 ≤ i then (if m = -1 then i else (if i < m then i else m)) else m

/-- Loop body of source `max`. -/
def maxStep (m i : Int) : Int :=
  if 0 ≤ i then (if m = -1 then i else (if i > m then i else m)) else m

/-- Loop body of source `sum`: only strictly positive samples accumulate. -/
def sumStep (t i : Int) : Int :=
  if 0 < i then t + i else t

/-- Loop body of source `average`: running (total, count) over non-negative
samples. -/
def avgStep (p : Int × Int) (i : Int) : Int × Int :=
  if 0 ≤ i then (p.1 + i, p.2 + 1) else p

/-- Source function `min` (lines 556-570). -/
def min (n : List Int) : Int :=
  n.foldl minStep (-1)

/-- Source function `max` (lines 572-586). -/
def max (n : List Int) : Int :=
  n.foldl maxStep (-1)

/-- Source function `sum` (lines 588-596). -/
def sum (n : List Int) : Int :=
  n.foldl sumStep 0

/-- Source function `average` (lines 598-609): one pass accumulating the total
and the count of non-negative samples, then `math.Floor(total/count + .5)`.
The division is unguarded in the source; a zero count is the undefined
(division-by-zero) case, modelled here as `none`. -/
def average (n : List Int) : Option Int :=
  let tc := n.foldl avgStep ((0 : Int), (0 : Int))
  if tc.2 = 0 then none
  else some ⌊(tc.1 : ℚ) / (tc.2 : ℚ) + 1 / 2⌋

/-- The non-negative samples of a series (negative values are the platform's
"no data" sentinel). -/
def nonneg (xs : List Int) : List Int :=
  xs.filter (fun i => decide (0 ≤ i))

/-- The strictly positive samples of a series. -/
def pos (xs : List Int) : List Int :=
  xs.filter (fun i => decide (0 < i))

/-- Specification-side form of `min`: minimum of the non-negative samples,
-1 when there is none. -/
def specMin (xs : List Int) : Int :=
  match nonneg xs with
  | [] => -1
  | y :: ys => ys.foldl Min.min y

/-- Specification-side form of `max`: maximum of the non-negative samples,
-1 when there is none. -/
def specMax (xs : List Int) : Int :=
  match nonneg xs with
  | [] => -1
  | y :: ys => ys.foldl Max.max y

/-! ## Counter Catalog Resolver (`VCenter.Init`, lines 147-172) -/

/-- Source struct `MetricDef`: a declared (and, after resolution, resolved)
metric. `Key` is the platform counter id. -/
structure MetricDef where
  Metric : String
  Instances : String
  Key : Int
deriving DecidableEq

/-- Source struct `MetricGroup` (the unused `Mor` scratch field is omitted). -/
structure MetricGroup where
  ObjectType : String
  Metrics : List MetricDef
deriving DecidableEq

/-- Source struct `Metric`: one declared-metrics block of the configuration. -/
structure Metric where
  ObjectType : List String
  Definition : List MetricDef
deriving DecidableEq

/-- One entry of the platform's performance-counter catalog: the fields of
`perfmanager.PerfCounter` read by `Init` (group key, name key, rollup type,
counter key). -/
structure PerfCounterInfo where
  GroupKey : String
  NameKey : String
  RollupType : String
  Key : Int
deriving DecidableEq

/-- The composite identifier `groupinfo.Key + "." + nameinfo.Key + "." +
rollupType` built at line 150. -/
def identifier (p : PerfCounterInfo) : String :=
  p.GroupKey ++ "." ++ p.NameKey ++ "." ++ p.RollupType

/-- Inner loop of `Init` (lines 155-168): add a resolved `MetricDef` to the
group of object type `mtype`, appending to the first group with that type and
creating a new group at the end when none exists (the `added` flag logic). -/
def addMetricDef : List MetricGroup → String → MetricDef → List MetricGroup
  | [], mtype, d => [⟨mtype, [d]⟩]
  | g :: gs, mtype, d =>
    if g.ObjectType = mtype then ⟨g.ObjectType, g.Metrics ++ [d]⟩ :: gs
    else g :: addMetricDef gs mtype d

/-- Loop over `metric.ObjectType` (lines 155-168). -/
def addForTypes (gs : List MetricGroup) (mtypes : List String) (d : MetricDef) :
    List MetricGroup :=
  mtypes.foldl (fun gs t => addMetricDef gs t d) gs

/-- Loop over `metric.Definition` (lines 152-169): only definitions whose
declared name equals the catalog entry's identifier are resolved; the resolved
definition carries the entry's counter key. -/
def addPerfMetric (gs : List MetricGroup) (p : PerfCounterInfo) (m : Metric) :
    List MetricGroup :=
  m.Definition.foldl
    (fun gs d =>
      if d.Metric = identifier p then addForTypes gs m.ObjectType ⟨d.Metric, d.Instances, p.Key⟩
      else gs)
    gs

/-- `VCenter.Init` (lines 147-172): fold the full catalog against all declared
metric blocks, starting from no groups. -/
def initGroups (catalog : List PerfCounterInfo) (metrics : List Metric) :
    List MetricGroup :=
  catalog.foldl (fun gs p => metrics.foldl (fun gs m => addPerfMetric gs p m) gs) []

/-- Some group of object type `t` contains the resolved definition `d`. -/
abbrev GroupHas (gs : List MetricGroup) (t : String) (d : MetricDef) : Prop :=
  ∃ g ∈ gs, g.ObjectType = t ∧ d ∈ g.Metrics

/-- Pedigree of a resolved definition: it arises from a catalog entry and a
declared metric whose name equals the entry's composite identifier, for a
declared object type. -/
abbrev ResolvedFrom (catalog : List PerfCounterInfo) (metrics : List Metric)
    (t : String) (d : MetricDef) : Prop :=
  ∃ p ∈ catalog, ∃ m ∈ metrics, ∃ d0 ∈ m.Definition,
    d0.Metric = identifier p ∧ t ∈ m.ObjectType ∧
    d = ⟨d0.Metric, d0.Instances, p.Key⟩

/-- One-entry catalog used by the resolver witness. -/
def catalogW : List PerfCounterInfo := [⟨"cpu", "usage", "average", 2⟩]

/-- One-block declared metrics used by the resolver witness. -/
def metricsW : List Metric := [⟨["VirtualMachine"], [⟨"cpu.usage.average", "", 0⟩]⟩]

/-! ## Performance Query Builder (`VCenter.Query`, lines 210-266 and 406-417) -/

/-- `types.ManagedObjectReference`: an opaque typed handle. -/
structure Mor where
  ty : String
  val : String
deriving DecidableEq

/-- `types.PerfMetricId`: a resolved counter id paired with its instance
selector. -/
structure PerfMetricId where
  CounterId : Int
  Instance : String
deriving DecidableEq

/-- `types.PerfQuerySpec` restricted to the fields the claims are about (the
fixed window and interval id are omitted). -/
structure PerfQuerySpec where
  Entity : Mor
  MetricId : List PerfMetricId
deriving DecidableEq

/-- The metric ids attached to one object (inner loops of lines 408-415):
all resolved definitions of every group whose object type equals `t`, each
paired with its instance selector. -/
def metricIdsFor (groups : List MetricGroup) (t : String) : List PerfMetricId :=
  groups.foldl
    (fun acc g =>
      if g.ObjectType = t then acc ++ g.Metrics.map (fun d => ⟨d.Key, d.Instances⟩)
      else acc)
    []

/-- The per-object query loop (lines 406-417): one `PerfQuerySpec` is appended
for every object reference, unconditionally. -/
def buildQueries (groups : List MetricGroup) (mors : List Mor) : List PerfQuerySpec :=
  mors.map (fun mor => ⟨mor, metricIdsFor groups mor.ty⟩)

/-- Object types of interest (lines 217-221): the group object types plus
`ClusterComputeResource` (used only for membership derivation). -/
def objectTypesOf (groups : List MetricGroup) : List String :=
  groups.map (fun g => g.ObjectType) ++ ["ClusterComputeResource"]

/-- Modelled from the spec: the platform's `createContainerView` /
`CreateContainerView` call (an external collaborator, not part of the source)
"recursively collect[s] all managed objects matching the objects-of-interest
types", i.e. it returns exactly the inventory objects whose type is among the
requested types. -/
def containerView (inventory : List Mor) (tys : List String) : List Mor :=
  inventory.filter (fun m => decide (m.ty ∈ tys))

/-- The type partition of lines 254-266: `VirtualMachine` and `HostSystem`
references are kept as `new_mors`; `ClusterComputeResource` references go to
the cluster list only; every other type is dropped. -/
def partitionMors (mors : List Mor) : List Mor :=
  mors.filter (fun m => decide (m.ty = "VirtualMachine" ∨ m.ty = "HostSystem"))

/-- The object-reference list a polling cycle ends up querying. -/
def cycleMors (inventory : List Mor) (groups : List MetricGroup) : List Mor :=
  partitionMors (containerView inventory (objectTypesOf groups))

/-- The full query batch of one polling cycle for one source. -/
def cycleQueries (inventory : List Mor) (groups : List MetricGroup) :
    List PerfQuerySpec :=
  buildQueries groups (cycleMors inventory groups)

/-! ## Series Aggregator and Point Assembler (`VCenter.Query`, lines 386-544) -/

/-- The counter-id-to-name map of lines 387-392. -/
def metricToName (groups : List MetricGroup) : List (Int × String) :=
  groups.foldl (fun m g => g.Metrics.foldl (fun m d => setA m d.Key d.Metric) m) []

/-- One `types.PerfMetricIntSeries` result: counter id, instance tag and the
raw sample sequence. -/
structure Serie where
  CounterId : Int
  Instance : String
  Value : List Int
deriving DecidableEq

/-- `metricName` (line 468): the lower-cased resolved name; an unknown counter
id yields the Go zero value `""`. -/
def metricNameOf (mtn : List (Int × String)) (s : Serie) : String :=
  strLower ((getA mtn s.CounterId).getD "")

/-- `influxMetricName` (line 469): dots replaced by underscores. -/
def influxNameOf (mtn : List (Int × String)) (s : Serie) : String :=
  dotToUnderscore (metricNameOf mtn s)

/-- `instanceName` before the datastore override (line 470). -/
def rawInstanceOf (s : Serie) : String :=
  strLower (dotToUnderscore s.Instance)

/-- `instanceName` after the datastore override (lines 473-475): forced empty
whenever the underscored field name contains the substring "datastore". -/
def finalInstanceOf (mtn : List (Int × String)) (s : Serie) : String :=
  if strContains (influxNameOf mtn s) "datastore" then "" else rawInstanceOf s

/-- `measurementName` (line 471): the first dot-segment of the metric name. -/
def measurementOf (mtn : List (Int × String)) (s : Serie) : String :=
  firstSeg (metricNameOf mtn s)

/-- The rollup dispatch of lines 477-488: suffix-directed reduction with the
default value -1 when no rollup suffix matches. `.latest` indexes the last
sample without a guard (`none` = index out of range on an empty series);
`average` is undefined (`none`) when no sample is non-negative. -/
def serieValue (metricName : String) (vals : List Int) : Option Int :=
  if strSuffix metricName ".average" then average vals
  else if strSuffix metricName ".maximum" then some (max vals)
  else if strSuffix metricName ".minimum" then some (min vals)
  else if strSuffix metricName ".latest" then vals.getLast?
  else if strSuffix metricName ".summation" then some (sum vals)
  else some (-1)

/-- The key of a per-instance point: (measurement, entity display name,
instance), exactly the nesting of `special_fields` in the source. -/
abbrev SKey := String × String × String

/-- The mutable per-entity assembly state of the result loop: the entity-level
field map `fields` and the per-instance maps `special_fields`/`special_tags`
(the source's three nested maps, flattened to their full keys). -/
structure QueryState where
  fields : List (String × Int)
  special_fields : List (SKey × List (String × Int))
  special_tags : List (SKey × List (String × String))
deriving DecidableEq

/-- The per-instance key of a series (lines 500-516): measurement, the
entity's `name` tag, and the final instance name. -/
def keyOf (mtn : List (Int × String)) (tags : List (String × String)) (s : Serie) :
    SKey :=
  (measurementOf mtn s, (getA tags "name").getD "", finalInstanceOf mtn s)

/-- Copy of the entity tag map into a per-instance tag map
(`for k, v := range tags` at lines 513-515). -/
def insertTags (base : List (String × String)) (tags : List (String × String)) :
    List (String × String) :=
  tags.foldl (fun m kv => setA m kv.1 kv.2) base

/-- One iteration of the series loop (lines 466-518): compute the value, then
either store it in the entity-level field map (empty instance) or in the
per-instance maps under `keyOf`, adding the `instance` tag. -/
def serieStep (mtn : List (Int × String)) (tags : List (String × String))
    (st : QueryState) (s : Serie) : Option QueryState :=
  match serieValue (metricNameOf mtn s) s.Value with
  | none => none
  | some value =>
    if finalInstanceOf mtn s = "" then
      some ⟨setA st.fields (influxNameOf mtn s) value, st.special_fields, st.special_tags⟩
    else
      let key := keyOf mtn tags s
      let fm := setA ((getA st.special_fields key).getD []) (influxNameOf mtn s) value
      let tg := setA (insertTags ((getA st.special_tags key).getD []) tags) "instance"
        (finalInstanceOf mtn s)
      some ⟨st.fields, setA st.special_fields key fm, setA st.special_tags key tg⟩

/-- The whole series loop of one entity. -/
def processSeries (mtn : List (Int × String)) (tags : List (String × String)) :
    QueryState → List Serie → Option QueryState
  | st, [] => some st
  | st, s :: rest =>
    match serieStep mtn tags st s with
    | none => none
    | some st' => processSeries mtn tags st' rest

/-- Specification-side reference: folding a series list into an entity-level
field map only (no per-instance routing at all). -/
def fieldsOnly (mtn : List (Int × String)) :
    List (String × Int) → List Serie → Option (List (String × Int))
  | fs, [] => some fs
  | fs, s :: rest =>
    match serieValue (metricNameOf mtn s) s.Value with
    | none => none
    | some value => fieldsOnly mtn (setA fs (influxNameOf mtn s) value) rest

/-- One InfluxDB point (measurement, tag set, field set; the timestamp is not
modelled). -/
structure Point where
  measurement : String
  tags : List (String × String)
  fields : List (String × Int)
deriving DecidableEq

/-- The entity-level point (lines 521-532): the entity field map merged with
the statically attached extra metrics. -/
def entityPoint (entityName : String) (tags : List (String × String))
    (st : QueryState) (extra : List (String × Int)) : Point :=
  ⟨entityName, tags, extra.foldl (fun fs kv => setA fs kv.1 kv.2) st.fields⟩

/-- The per-instance points (lines 534-544): one point per `special_fields`
key, tagged with the tag map stored under the same key. -/
def specialPoints (st : QueryState) : List Point :=
  st.special_fields.map (fun kv => ⟨kv.1.1, (getA st.special_tags kv.1).getD [], kv.2⟩)

/-- Per-instance presence predicate: under key `k` the per-instance field map
exists and holds field `nm`, and the per-instance tag map exists and carries
the `instance` tag equal to the instance component of `k`. -/
def SpecialAt (k : SKey) (nm : String) (st : QueryState) : Prop :=
  (∃ fm, getA st.special_fields k = some fm ∧ (getA fm nm).isSome = true) ∧
  (∃ tg, getA st.special_tags k = some tg ∧ getA tg "instance" = some k.2.2)

/-- Concrete counter-name map used by the witnesses. -/
def mtnEx : List (Int × String) :=
  [(1, "disk.commandsAborted.latest"), (3, "datastore.write.latest"), (7, "cpu.ready")]

/-- Concrete entity tag map used by the witnesses. -/
def tagsEx : List (String × String) :=
  [("host", "vc1"), ("name", "vm1")]

/-- The empty assembly state (all three maps empty). -/
def stEmpty : QueryState := ⟨[], [], []⟩

/-- A series with a per-instance tag (used by the witnesses). -/
def serieInst : Serie := ⟨1, "scsi0", [1, 2, -1]⟩

/-- A datastore series carrying a platform-supplied instance tag (used by the
witnesses). -/
def serieDs : Serie := ⟨3, "SCSI.0", [7]⟩

/-- A series whose resolved name matches no rollup suffix (used by the
witnesses). -/
def serieNone : Serie := ⟨7, "", [5]⟩

/-- The assembly state reached by processing `serieInst` from the empty state
(used by the point-assembly witness). -/
def stW4 : QueryState :=
  ⟨[], [(("disk", "vm1", "scsi0"), [("disk_commandsaborted_latest", -1)])],
    [(("disk", "vm1", "scsi0"),
      [("host", "vc1"), ("name", "vm1"), ("instance", "scsi0")])]⟩

/-! ## Lemmas about the association-list maps -/

theorem getA_setA_self {α β : Type} [DecidableEq α] (m : List (α × β)) (k : α) (v : β) :
    getA (setA m k v) k = some v := by
  induction m with
  | nil => simp [setA, getA]
  | cons p m ih =>
    obtain ⟨k', v'⟩ := p
    by_cases h : k' = k <;> simp [setA, getA, h, ih]

theorem getA_setA_ne {α β : Type} [DecidableEq α] (m : List (α × β)) (k k' : α) (v : β)
    (h : k' ≠ k) : getA (setA m k v) k' = getA m k' := by
  have hk : ¬ k = k' := fun hh => h hh.symm
  induction m with
  | nil => simp [setA, getA, hk]
  | cons p m ih =>
    obtain ⟨a, b⟩ := p
    by_cases hak : a = k
    · subst hak
      simp [setA, getA, hk]
    · simp [setA, getA, hak, ih]

theorem getA_setA_isSome {α β : Type} [DecidableEq α] (m : List (α × β)) (k k' : α) (v : β)
    (h : (getA m k').isSome = true) : (getA (setA m k v) k').isSome = true := by
  by_cases hk : k' = k
  · subst hk; simp [getA_setA_self]
  · rwa [getA_setA_ne _ _ _ _ hk]

theorem keys_setA {α β : Type} [DecidableEq α] (m : List (α × β)) (k : α) (v : β) :
    (setA m k v).map Prod.fst =
      if k ∈ m.map Prod.fst then m.map Prod.fst else m.map Prod.fst ++ [k] := by
  induction m with
  | nil => simp [setA]
  | cons p m ih =>
    obtain ⟨a, b⟩ := p
    by_cases hak : a = k
    · subst hak; simp [setA]
    · have hka : ¬ k = a := fun hh => hak hh.symm
      by_cases hmem : k ∈ m.map Prod.fst
      · simp [setA, hak, ih, hmem, hka]
      · simp [setA, hak, ih, hmem, hka]

theorem nodup_keys_setA {α β : Type} [DecidableEq α] (m : List (α × β)) (k : α) (v : β)
    (h : (m.map Prod.fst).Nodup) : ((setA m k v).map Prod.fst).Nodup := by
  rw [keys_setA]
  by_cases hmem : k ∈ m.map Prod.fst
  · simpa [hmem]
  · simp only [hmem, if_false]
    refine List.Nodup.append h (List.nodup_singleton k) ?_
    intro a ha
    simp only [List.mem_singleton]
    intro hhak
    exact hmem (hhak ▸ ha)

theorem getA_mem {α β : Type} [DecidableEq α] {m : List (α × β)} {k : α} {v : β}
    (h : getA m k = some v) : (k, v) ∈ m := by
  induction m with
  | nil => simp [getA] at h
  | cons p m ih =>
    obtain ⟨a, b⟩ := p
    by_cases hak : a = k
    · subst hak
      simp [getA] at h
      subst h
      exact List.mem_cons_self _ _
    · simp only [getA, if_neg hak] at h
      exact List.mem_cons_of_mem _ (ih h)

theorem mem_keys_setA {α β : Type} [DecidableEq α] {m : List (α × β)} {k k' : α} {v : β}
    (h : k' ∈ (setA m k v).map Prod.fst) : k' ∈ m.map Prod.fst ∨ k' = k := by
  rw [keys_setA] at h
  by_cases hmem : k ∈ m.map Prod.fst
  · rw [if_pos hmem] at h; exact Or.inl h
  · rw [if_neg hmem] at h
    rcases List.mem_append.1 h with h1 | h1
    · exact Or.inl h1
    · simp only [List.mem_singleton] at h1; exact Or.inr h1

/-! ## Lemmas about the string helpers -/

theorem listPre_trans_of_le (a b s : List Char) (ha : listPre a s = true)
    (hb : listPre b s = true) (hlen : a.length ≤ b.length) : listPre a b = true := by
  induction s generalizing a b with
  | nil =>
    cases a with
    | nil => cases b <;> simp [listPre]
    | cons x xs => simp [listPre] at ha
  | cons c t ih =>
    cases a with
    | nil => cases b <;> simp [listPre]
    | cons x xs =>
      cases b with
      | nil => simp at hlen
      | cons y ys =>
        simp only [listPre, Bool.and_eq_true, decide_eq_true_eq] at ha hb ⊢
        exact ⟨ha.1.trans hb.1.symm, ih xs ys ha.2 hb.2 (by simpa using hlen)⟩

/-! ## Lemmas about the reductions -/

theorem minStep_nonneg (m i : Int) (hm : 0 ≤ m) :
    minStep m i = if 0 ≤ i then Min.min m i else m := by
  rw [min_def]
  unfold minStep
  split_ifs <;> omega

theorem maxStep_nonneg (m i : Int) (hm : 0 ≤ m) :
    maxStep m i = if 0 ≤ i then Max.max m i else m := by
  rw [max_def]
  unfold maxStep
  split_ifs <;> omega

theorem min_foldl_nonneg (xs : List Int) (m : Int) (hm : 0 ≤ m) :
    xs.foldl minStep m = (nonneg xs).foldl Min.min m := by
  induction xs generalizing m with
  | nil => simp [nonneg]
  | cons i xs ih =>
    rw [List.foldl_cons, minStep_nonneg m i hm]
    by_cases hi : 0 ≤ i
    · rw [if_pos hi]
      have h1 : nonneg (i :: xs) = i :: nonneg xs := by simp [nonneg, hi]
      rw [h1, List.foldl_cons]
      exact ih (Min.min m i) (le_min hm hi)
    · rw [if_neg hi]
      have h1 : nonneg (i :: xs) = nonneg xs := by simp [nonneg, hi]
      rw [h1]
      exact ih m hm

theorem max_foldl_nonneg (xs : List Int) (m : Int) (hm : 0 ≤ m) :
    xs.foldl maxStep m = (nonneg xs).foldl Max.max m := by
  induction xs generalizing m with
  | nil => simp [nonneg]
  | cons i xs ih =>
    rw [List.foldl_cons, maxStep_nonneg m i hm]
    by_cases hi : 0 ≤ i
    · rw [if_pos hi]
      have h1 : nonneg (i :: xs) = i :: nonneg xs := by simp [nonneg, hi]
      rw [h1, List.foldl_cons]
      exact ih (Max.max m i) (le_trans hm (le_max_left m i))
    · rw [if_neg hi]
      have h1 : nonneg (i :: xs) = nonneg xs := by simp [nonneg, hi]
      rw [h1]
      exact ih m hm

theorem min_eq_specMin (xs : List Int) : min xs = specMin xs := by
  induction xs with
  | nil => rfl
  | cons i xs ih =>
    show List.foldl minStep (minStep (-1) i) xs = specMin (i :: xs)
    by_cases hi : 0 ≤ i
    · have h1 : nonneg (i :: xs) = i :: nonneg xs := by simp [nonneg, hi]
      have h2 : minStep (-1) i = i := by simp [minStep, hi]
      rw [h2]
      have h3 : specMin (i :: xs) = (nonneg xs).foldl Min.min i := by
        unfold specMin
        rw [h1]
      rw [h3]
      exact min_foldl_nonneg xs i hi
    · have h1 : nonneg (i :: xs) = nonneg xs := by simp [nonneg, hi]
      have h2 : minStep (-1) i = -1 := by simp [minStep, hi]
      have h3 : specMin (i :: xs) = specMin xs := by
        unfold specMin
        rw [h1]
      rw [h2, h3]
      exact ih

theorem max_eq_specMax (xs : List Int) : max xs = specMax xs := by
  induction xs with
  | nil => rfl
  | cons i xs ih =>
    show List.foldl maxStep (maxStep (-1) i) xs = specMax (i :: xs)
    by_cases hi : 0 ≤ i
    · have h1 : nonneg (i :: xs) = i :: nonneg xs := by simp [nonneg, hi]
      have h2 : maxStep (-1) i = i := by simp [maxStep, hi]
      rw [h2]
      have h3 : specMax (i :: xs) = (nonneg xs).foldl Max.max i := by
        unfold specMax
        rw [h1]
      rw [h3]
      exact max_foldl_nonneg xs i hi
    · have h1 : nonneg (i :: xs) = nonneg xs := by simp [nonneg, hi]
      have h2 : maxStep (-1) i = -1 := by simp [maxStep, hi]
      have h3 : specMax (i :: xs) = specMax xs := by
        unfold specMax
        rw [h1]
      rw [h2, h3]
      exact ih

theorem foldl_min_mem (y : Int) (ys : List Int) : ys.foldl Min.min y ∈ y :: ys := by
  induction ys generalizing y with
  | nil => simp
  | cons z zs ih =>
    rw [List.foldl_cons]
    have h := ih (Min.min y z)
    rcases List.mem_cons.1 h with h1 | h1
    · rcases min_choice y z with h2 | h2
      · rw [h1, h2]; exact List.mem_cons_self _ _
      · rw [h1, h2]; exact List.mem_cons_of_mem _ (List.mem_cons_self _ _)
    · exact List.mem_cons_of_mem _ (List.mem_cons_of_mem _ h1)

theorem foldl_max_mem (y : Int) (ys : List Int) : ys.foldl Max.max y ∈ y :: ys := by
  induction ys generalizing y with
  | nil => simp
  | cons z zs ih =>
    rw [List.foldl_cons]
    have h := ih (Max.max y z)
    rcases List.mem_cons.1 h with h1 | h1
    · rcases max_choice y z with h2 | h2
      · rw [h1, h2]; exact List.mem_cons_self _ _
      · rw [h1, h2]; exact List.mem_cons_of_mem _ (List.mem_cons_self _ _)
    · exact List.mem_cons_of_mem _ (List.mem_cons_of_mem _ h1)

theorem foldl_min_le (y : Int) (ys : List Int) :
    ys.foldl Min.min y ≤ y ∧ ∀ z ∈ ys, ys.foldl Min.min y ≤ z := by
  induction ys generalizing y with
  | nil => exact ⟨le_refl y, by simp⟩
  | cons z zs ih =>
    obtain ⟨h1, h2⟩ := ih (Min.min y z)
    rw [List.foldl_cons]
    refine ⟨h1.trans (min_le_left y z), ?_⟩
    intro w hw
    rcases List.mem_cons.1 hw with hw | hw
    · subst hw; exact h1.trans (min_le_right y w)
    · exact h2 w hw

theorem foldl_le_max (y : Int) (ys : List Int) :
    y ≤ ys.foldl Max.max y ∧ ∀ z ∈ ys, z ≤ ys.foldl Max.max y := by
  induction ys generalizing y with
  | nil => exact ⟨le_refl y, by simp⟩
  | cons z zs ih =>
    obtain ⟨h1, h2⟩ := ih (Max.max y z)
    rw [List.foldl_cons]
    refine ⟨(le_max_left y z).trans h1, ?_⟩
    intro w hw
    rcases List.mem_cons.1 hw with hw | hw
    · subst hw; exact (le_max_right y w).trans h1
    · exact h2 w hw

theorem sum_foldl (xs : List Int) (c : Int) : xs.foldl sumStep c = c + (pos xs).sum := by
  induction xs generalizing c with
  | nil => simp [pos]
  | cons i xs ih =>
    rw [List.foldl_cons]
    by_cases hi : 0 < i
    · have h1 : sumStep c i = c + i := by simp [sumStep, hi]
      have h2 : pos (i :: xs) = i :: pos xs := by simp [pos, hi]
      rw [h1, h2, ih, List.sum_cons]
      ring
    · have h1 : sumStep c i = c := by simp [sumStep, hi]
      have h2 : pos (i :: xs) = pos xs := by simp [pos, hi]
      rw [h1, h2, ih]

theorem avg_foldl (xs : List Int) (a c : Int) :
    xs.foldl avgStep (a, c) = (a + (nonneg xs).sum, c + (nonneg xs).length) := by
  induction xs generalizing a c with
  | nil => simp [nonneg]
  | cons i xs ih =>
    rw [List.foldl_cons]
    by_cases hi : 0 ≤ i
    · have h1 : avgStep (a, c) i = (a + i, c + 1) := by simp [avgStep, hi]
      have h2 : nonneg (i :: xs) = i :: nonneg xs := by simp [nonneg, hi]
      rw [h1, h2, ih, List.sum_cons, List.length_cons]
      simp only [Prod.mk.injEq]
      refine ⟨by ring, ?_⟩
      push_cast
      ring
    · have h1 : avgStep (a, c) i = (a, c) := by simp [avgStep, hi]
      have h2 : nonneg (i :: xs) = nonneg xs := by simp [nonneg, hi]
      rw [h1, h2, ih]

theorem average_char (xs : List Int) (h : nonneg xs ≠ []) :
    average xs =
      some ⌊((nonneg xs).sum : ℚ) / ((nonneg xs).length : ℚ) + 1 / 2⌋ := by
  have hlen : ¬ ((0 : Int) + ((nonneg xs).length : Int) = 0) := by
    have := List.length_pos.2 h
    omega
  simp only [average, avg_foldl]
  rw [if_neg hlen]
  norm_num

theorem average_none (xs : List Int) (h : nonneg xs = []) : average xs = none := by
  simp only [average, avg_foldl, h]
  simp

theorem average_ex1 : average [10, 20, 30] = some 20 := by
  rw [average_char _ (by decide)]
  have h1 : nonneg [10, 20, 30] = [10, 20, 30] := by decide
  rw [h1]
  norm_num

theorem average_ex2 : average [-1, 10] = some 10 := by
  rw [average_char _ (by decide)]
  have h1 : nonneg [-1, 10] = [10] := by decide
  rw [h1]
  norm_num

example : min [5, -1, 2] = 2 := by decide
example : max [-1, -1] = -1 := by decide
example : sum [-5, 0, 3, 4] = 7 := by decide
example : strContains "datastore_read_average" "datastore" = true := by decide
example : strSuffix "cpu.usage.average" ".average" = true := by decide
example : firstSeg "cpu.usage.average" = "cpu" := by decide
example : dotToUnderscore "cpu.usage.average" = "cpu_usage_average" := by decide
example : strLower "ABc.D" = "abc.d" := by decide

/-! ## Claim theorems -/

/-- C2: the `average` reduction divides by the count of non-negative samples
without guarding the zero-count case: whenever at least one sample is
non-negative the result is defined, and whenever no sample is non-negative the
undefined (division-by-zero) branch is taken — non-emptiness of the
non-negative subset is necessary and sufficient for a defined result. -/
theorem claim_C2 :
    (∀ xs : List Int, nonneg xs ≠ [] → (average xs).isSome = true) ∧
    (∀ xs : List Int, nonneg xs = [] → average xs = none) := by
  constructor
  · intro xs h
    rw [average_char xs h]
    rfl
  · intro xs h
    exact average_none xs h

/-- Witness for C2 at the concrete inputs `[10]` (defined) and `[-1]`
(undefined branch reached). -/
theorem claim_C2_witness :
    nonneg [(10 : Int)] ≠ [] ∧ (average [(10 : Int)]).isSome = true ∧
    nonneg [(-1 : Int)] = [] ∧ average [(-1 : Int)] = none :=
  ⟨by decide, claim_C2.1 [(10 : Int)] (by decide), by decide,
    claim_C2.2 [(-1 : Int)] (by decide)⟩

/-- C3: on a series with at least one non-negative sample, `average` is the
arithmetic mean of the non-negative samples rounded by floor(x + 0.5), and in
particular `average [10,20,30] = 20` and `average [-1,10] = 10`. -/
theorem claim_C3 :
    (∀ xs : List Int, nonneg xs ≠ [] →
      average xs =
        some ⌊((nonneg xs).sum : ℚ) / ((nonneg xs).length : ℚ) + 1 / 2⌋) ∧
    average [10, 20, 30] = some 20 ∧ average [-1, 10] = some 10 :=
  ⟨average_char, average_ex1, average_ex2⟩

/-- Witness for C3 at the concrete input `[10, 20, 30]`. -/
theorem claim_C3_witness :
    nonneg [(10 : Int), 20, 30] ≠ [] ∧
    average [(10 : Int), 20, 30] =
      some ⌊((nonneg [(10 : Int), 20, 30]).sum : ℚ) /
        ((nonneg [(10 : Int), 20, 30]).length : ℚ) + 1 / 2⌋ :=
  ⟨by decide, claim_C3.1 [(10 : Int), 20, 30] (by decide)⟩

/-- C8: `max` (resp. `min`) returns the maximum (resp. minimum) over the
non-negative samples and the sentinel -1 when there is none; in particular
`max [-1,-1] = -1` and `min [5,-1,2] = 2`. -/
theorem claim_C8 :
    (∀ xs : List Int, nonneg xs = [] → min xs = -1 ∧ max xs = -1) ∧
    (∀ xs : List Int, nonneg xs ≠ [] →
      (min xs ∈ nonneg xs ∧ ∀ y ∈ nonneg xs, min xs ≤ y) ∧
      (max xs ∈ nonneg xs ∧ ∀ y ∈ nonneg xs, y ≤ max xs)) ∧
    max [-1, -1] = -1 ∧ min [5, -1, 2] = 2 := by
  refine ⟨?_, ?_, by decide, by decide⟩
  · intro xs h
    constructor
    · rw [min_eq_specMin]
      unfold specMin
      rw [h]
    · rw [max_eq_specMax]
      unfold specMax
      rw [h]
  · intro xs h
    rcases heq : nonneg xs with _ | ⟨y, ys⟩
    · exact absurd heq h
    · have hmin : min xs = ys.foldl Min.min y := by
        rw [min_eq_specMin]
        unfold specMin
        rw [heq]
      have hmax : max xs = ys.foldl Max.max y := by
        rw [max_eq_specMax]
        unfold specMax
        rw [heq]
      refine ⟨⟨?_, ?_⟩, ?_, ?_⟩
      · rw [hmin]
        exact foldl_min_mem y ys
      · intro z hz
        rw [hmin]
        rcases List.mem_cons.1 hz with hz | hz
        · rw [hz]; exact (foldl_min_le y ys).1
        · exact (foldl_min_le y ys).2 z hz
      · rw [hmax]
        exact foldl_max_mem y ys
      · intro z hz
        rw [hmax]
        rcases List.mem_cons.1 hz with hz | hz
        · rw [hz]; exact (foldl_le_max y ys).1
        · exact (foldl_le_max y ys).2 z hz

/-- Witness for C8 at the concrete inputs `[-1, -1]` (no non-negative sample)
and `[5, -1, 2]`. -/
theorem claim_C8_witness :
    (nonneg [(-1 : Int), -1] = [] ∧ min [(-1 : Int), -1] = -1 ∧
      max [(-1 : Int), -1] = -1) ∧
    (nonneg [(5 : Int), -1, 2] ≠ [] ∧ min [(5 : Int), -1, 2] ∈ nonneg [(5 : Int), -1, 2]) :=
  ⟨⟨by decide, (claim_C8.1 [(-1 : Int), -1] (by decide)).1,
      (claim_C8.1 [(-1 : Int), -1] (by decide)).2⟩,
    ⟨by decide, ((claim_C8.2.1 [(5 : Int), -1, 2] (by decide)).1).1⟩⟩

/-- C9: `sum` returns the sum of the strictly positive samples (zero and
negative excluded), 0 when no sample is strictly positive, and in particular
`sum [-5,0,3,4] = 7`. -/
theorem claim_C9 :
    (∀ xs : List Int, sum xs = (pos xs).sum) ∧
    (∀ xs : List Int, pos xs = [] → sum xs = 0) ∧
    sum [-5, 0, 3, 4] = 7 := by
  have hmain : ∀ xs : List Int, sum xs = (pos xs).sum := by
    intro xs
    have := sum_foldl xs 0
    rwa [zero_add] at this
  refine ⟨hmain, ?_, by decide⟩
  intro xs h
  rw [hmain, h]
  rfl

/-- Witness for C9 at the concrete input `[-5, 0]` (no strictly positive
sample). -/
theorem claim_C9_witness :
    pos [(-5 : Int), 0] = [] ∧ sum [(-5 : Int), 0] = 0 :=
  ⟨by decide, claim_C9.2.1 [(-5 : Int), 0] (by decide)⟩

/-- Two suffixes of the same string are suffixes of one another (shorter of
longer); a concrete mismatch therefore excludes one of them. -/
theorem strSuffix_excl (s a b : String)
    (hlen : a.toList.reverse.length ≤ b.toList.reverse.length)
    (hnp : listPre a.toList.reverse b.toList.reverse = false)
    (ha : strSuffix s a = true) : strSuffix s b = false := by
  cases hq : strSuffix s b
  · rfl
  · have h2 := listPre_trans_of_le _ _ _ ha hq hlen
    rw [hnp] at h2
    simp at h2

/-- A name ending in `.latest` ends in none of `.average`, `.maximum`,
`.minimum` (the suffixes checked before it in the dispatch chain). -/
theorem latest_excl (mn : String) (h : strSuffix mn ".latest" = true) :
    strSuffix mn ".average" = false ∧ strSuffix mn ".maximum" = false ∧
      strSuffix mn ".minimum" = false :=
  ⟨strSuffix_excl mn ".latest" ".average" (by decide) (by decide) h,
    strSuffix_excl mn ".latest" ".maximum" (by decide) (by decide) h,
    strSuffix_excl mn ".latest" ".minimum" (by decide) (by decide) h⟩

/-- C5: for a `.latest` rollup the aggregated value is the last sample taken
verbatim (the sentinel passes through, `latest [1,2,-1] = -1`), and the last
element is indexed without a guard: the reduction is defined exactly on
non-empty sample sequences (`none` models the out-of-range index). -/
theorem claim_C5 :
    (∀ (mn : String) (vs : List Int) (a : Int), strSuffix mn ".latest" = true →
      serieValue mn (vs ++ [a]) = some a) ∧
    (∀ mn : String, strSuffix mn ".latest" = true → serieValue mn [] = none) ∧
    serieValue "disk.commandsAborted.latest" [1, 2, -1] = some (-1) := by
  refine ⟨?_, ?_, by decide⟩
  · intro mn vs a h
    obtain ⟨h1, h2, h3⟩ := latest_excl mn h
    simp [serieValue, h1, h2, h3, h, List.getLast?_concat]
  · intro mn h
    obtain ⟨h1, h2, h3⟩ := latest_excl mn h
    simp [serieValue, h1, h2, h3, h]

/-- Witness for C5 at the concrete name `disk.commandsAborted.latest`. -/
theorem claim_C5_witness :
    strSuffix "disk.commandsAborted.latest" ".latest" = true ∧
    serieValue "disk.commandsAborted.latest" ([1, 2] ++ [-1]) = some (-1) ∧
    serieValue "disk.commandsAborted.latest" [] = none :=
  ⟨by decide, claim_C5.1 "disk.commandsAborted.latest" [1, 2] (-1) (by decide),
    claim_C5.2.1 "disk.commandsAborted.latest" (by decide)⟩

/-- C6: whenever the underscored field name contains the substring
"datastore", the instance is forced empty regardless of the platform-supplied
instance tag, so the value lands in the entity-level field map and the
per-instance maps are untouched. -/
theorem claim_C6 (mtn : List (Int × String)) (tags : List (String × String))
    (st : QueryState) (s : Serie)
    (h : strContains (influxNameOf mtn s) "datastore" = true) :
    finalInstanceOf mtn s = "" ∧
    ∀ st', serieStep mtn tags st s = some st' →
      st'.special_fields = st.special_fields ∧ st'.special_tags = st.special_tags ∧
      ∃ v, serieValue (metricNameOf mtn s) s.Value = some v ∧
        st'.fields = setA st.fields (influxNameOf mtn s) v := by
  have hfi : finalInstanceOf mtn s = "" := by
    simp [finalInstanceOf, h]
  refine ⟨hfi, ?_⟩
  intro st' hstep
  cases hv : serieValue (metricNameOf mtn s) s.Value with
  | none =>
    simp only [serieStep, hv] at hstep
    exact Option.noConfusion hstep
  | some v =>
    have hstep2 : serieStep mtn tags st s =
        some ⟨setA st.fields (influxNameOf mtn s) v, st.special_fields, st.special_tags⟩ := by
      simp [serieStep, hv, hfi]
    rw [hstep2] at hstep
    have heq := Option.some.inj hstep
    subst heq
    exact ⟨rfl, rfl, v, rfl, rfl⟩

/-- Witness for C6: a datastore counter whose series carries the raw instance
tag "SCSI.0" is still routed to the entity-level field map. -/
theorem claim_C6_witness :
    strContains (influxNameOf mtnEx serieDs) "datastore" = true ∧
    (finalInstanceOf mtnEx serieDs = "" ∧
      ∀ st', serieStep mtnEx tagsEx stEmpty serieDs = some st' →
        st'.special_fields = stEmpty.special_fields ∧
        st'.special_tags = stEmpty.special_tags ∧
        ∃ v, serieValue (metricNameOf mtnEx serieDs) serieDs.Value = some v ∧
          st'.fields = setA stEmpty.fields (influxNameOf mtnEx serieDs) v) :=
  ⟨by decide, claim_C6 mtnEx tagsEx stEmpty serieDs (by decide)⟩

/-- C10: a series whose resolved name ends in none of the five rollup suffixes
is neither dropped nor an error: its value is the initialiser -1 and the field
is still emitted (into the entity-level map or its per-instance point). -/
theorem claim_C10 (mtn : List (Int × String)) (tags : List (String × String))
    (st : QueryState) (s : Serie)
    (h1 : strSuffix (metricNameOf mtn s) ".average" = false)
    (h2 : strSuffix (metricNameOf mtn s) ".maximum" = false)
    (h3 : strSuffix (metricNameOf mtn s) ".minimum" = false)
    (h4 : strSuffix (metricNameOf mtn s) ".latest" = false)
    (h5 : strSuffix (metricNameOf mtn s) ".summation" = false) :
    serieValue (metricNameOf mtn s) s.Value = some (-1) ∧
    ∃ st', serieStep mtn tags st s = some st' ∧
      ((finalInstanceOf mtn s = "" ∧ getA st'.fields (influxNameOf mtn s) = some (-1)) ∨
       (finalInstanceOf mtn s ≠ "" ∧
         ∃ fm, getA st'.special_fields (keyOf mtn tags s) = some fm ∧
           getA fm (influxNameOf mtn s) = some (-1))) := by
  have hv : serieValue (metricNameOf mtn s) s.Value = some (-1) := by
    simp [serieValue, h1, h2, h3, h4, h5]
  refine ⟨hv, ?_⟩
  by_cases hfi : finalInstanceOf mtn s = ""
  · refine ⟨⟨setA st.fields (influxNameOf mtn s) (-1), st.special_fields,
      st.special_tags⟩, ?_, ?_⟩
    · simp [serieStep, hv, hfi]
    · exact Or.inl ⟨hfi, getA_setA_self _ _ _⟩
  · refine ⟨⟨st.fields,
      setA st.special_fields (keyOf mtn tags s)
        (setA ((getA st.special_fields (keyOf mtn tags s)).getD [])
          (influxNameOf mtn s) (-1)),
      setA st.special_tags (keyOf mtn tags s)
        (setA (insertTags ((getA st.special_tags (keyOf mtn tags s)).getD []) tags)
          "instance" (finalInstanceOf mtn s))⟩, ?_, ?_⟩
    · simp [serieStep, hv, hfi]
    · exact Or.inr ⟨hfi, ⟨_, getA_setA_self _ _ _, getA_setA_self _ _ _⟩⟩

/-- Witness for C10 at the concrete resolved name `cpu.ready` (no rollup
suffix). -/
theorem claim_C10_witness :
    (strSuffix (metricNameOf mtnEx serieNone) ".average" = false ∧
      strSuffix (metricNameOf mtnEx serieNone) ".maximum" = false ∧
      strSuffix (metricNameOf mtnEx serieNone) ".minimum" = false ∧
      strSuffix (metricNameOf mtnEx serieNone) ".latest" = false ∧
      strSuffix (metricNameOf mtnEx serieNone) ".summation" = false) ∧
    (serieValue (metricNameOf mtnEx serieNone) serieNone.Value = some (-1) ∧
      ∃ st', serieStep mtnEx tagsEx stEmpty serieNone = some st' ∧
        ((finalInstanceOf mtnEx serieNone = "" ∧
            getA st'.fields (influxNameOf mtnEx serieNone) = some (-1)) ∨
         (finalInstanceOf mtnEx serieNone ≠ "" ∧
           ∃ fm, getA st'.special_fields (keyOf mtnEx tagsEx serieNone) = some fm ∧
             getA fm (influxNameOf mtnEx serieNone) = some (-1)))) :=
  ⟨⟨by decide, by decide, by decide, by decide, by decide⟩,
    claim_C10 mtnEx tagsEx stEmpty serieNone (by decide) (by decide) (by decide)
      (by decide) (by decide)⟩

/-! ## Lemmas for the query-builder counting argument -/

theorem filterOfMap {α β : Type} (f : α → β) (p : β → Bool) (l : List α) :
    (l.map f).filter p = (l.filter (fun x => p (f x))).map f := by
  induction l with
  | nil => rfl
  | cons x xs ih =>
    by_cases h : p (f x) = true <;> simp [List.filter_cons, h, ih]

theorem filter_cons_pos {α : Type} (p : α → Bool) (x : α) (xs : List α)
    (h : p x = true) : (x :: xs).filter p = x :: xs.filter p := by
  simp [List.filter_cons, h]

theorem filter_cons_neg {α : Type} (p : α → Bool) (x : α) (xs : List α)
    (h : ¬ p x = true) : (x :: xs).filter p = xs.filter p := by
  simp [List.filter_cons, h]

theorem filter_beq_filter {α : Type} [DecidableEq α] (l : List α) (q : α → Bool) (a : α) :
    ((l.filter q).filter (fun x => x == a)).length =
      if q a = true then (l.filter (fun x => x == a)).length else 0 := by
  induction l with
  | nil => simp
  | cons x xs ih =>
    by_cases hxa : x = a
    · subst hxa
      by_cases hx : q x = true
      · rw [filter_cons_pos q x xs hx,
          filter_cons_pos (fun y => y == x) x (xs.filter q) (by simp),
          filter_cons_pos (fun y => y == x) x xs (by simp),
          List.length_cons, List.length_cons, ih, if_pos hx, if_pos hx]
      · rw [filter_cons_neg q x xs hx,
          filter_cons_pos (fun y => y == x) x xs (by simp),
          List.length_cons, ih, if_neg hx, if_neg hx]
    · by_cases hx : q x = true
      · rw [filter_cons_pos q x xs hx,
          filter_cons_neg (fun y => y == a) x (xs.filter q) (by simp [hxa]),
          filter_cons_neg (fun y => y == a) x xs (by simp [hxa]),
          ih]
      · rw [filter_cons_neg q x xs hx,
          filter_cons_neg (fun y => y == a) x xs (by simp [hxa]),
          ih]

/-- C1 counterexample: an inventory object whose concrete type ("Datastore")
does equal a MetricGroup's objectType still produces no query, because the
type partition of lines 254-266 keeps only VirtualMachine and HostSystem
references; the claim "for every other object ref exactly one query is built"
is false at this input. -/
theorem claim_C1_counterexample :
    (∃ g ∈ ([⟨"Datastore", [⟨"datastore.used.latest", "*", 42⟩]⟩] : List MetricGroup),
      g.ObjectType = (⟨"Datastore", "ds-1"⟩ : Mor).ty) ∧
    cycleQueries [⟨"Datastore", "ds-1"⟩]
      [⟨"Datastore", [⟨"datastore.used.latest", "*", 42⟩]⟩] = [] :=
  ⟨by decide, by decide⟩

/-- C1 (amended): in a cycle over an inventory in which the object ref `m`
occurs exactly once, an object whose type matches no MetricGroup gets no
query, and an object whose type matches a MetricGroup gets exactly one query
precisely when its type is VirtualMachine or HostSystem (matching objects of
any other type are also skipped by the type partition); every query built for
`m` carries all resolved counter ids of the matching groups, each paired with
its instance selector. -/
theorem claim_C1 (inventory : List Mor) (groups : List MetricGroup) (m : Mor)
    (hcount : (inventory.filter (fun x => x == m)).length = 1) :
    (((cycleQueries inventory groups).filter (fun q => q.Entity == m)).length =
      if (∃ g ∈ groups, g.ObjectType = m.ty) ∧
          (m.ty = "VirtualMachine" ∨ m.ty = "HostSystem") then 1 else 0) ∧
    (∀ q ∈ cycleQueries inventory groups, q.Entity = m →
      q.MetricId = metricIdsFor groups m.ty) := by
  constructor
  · have hstep1 : ((cycleQueries inventory groups).filter (fun q => q.Entity == m)) =
        ((cycleMors inventory groups).filter (fun mor => mor == m)).map
          (fun mor => (⟨mor, metricIdsFor groups mor.ty⟩ : PerfQuerySpec)) := by
      show ((((cycleMors inventory groups).map
          (fun mor => (⟨mor, metricIdsFor groups mor.ty⟩ : PerfQuerySpec)))).filter
            (fun q => q.Entity == m)) = _
      rw [filterOfMap]
    have hlen2 : ((cycleMors inventory groups).filter (fun mor => mor == m)).length =
        if decide (m.ty = "VirtualMachine" ∨ m.ty = "HostSystem") = true then
          ((inventory.filter (fun x => decide (x.ty ∈ objectTypesOf groups))).filter
            (fun x => x == m)).length
        else 0 :=
      filter_beq_filter _ _ m
    have hlen3 : ((inventory.filter (fun x => decide (x.ty ∈ objectTypesOf groups))).filter
        (fun x => x == m)).length =
        if decide (m.ty ∈ objectTypesOf groups) = true then
          (inventory.filter (fun x => x == m)).length
        else 0 :=
      filter_beq_filter _ _ m
    rw [hstep1, List.length_map, hlen2, hlen3, hcount]
    by_cases hA : m.ty = "VirtualMachine" ∨ m.ty = "HostSystem"
    · by_cases hC : ∃ g ∈ groups, g.ObjectType = m.ty
      · have hB : m.ty ∈ objectTypesOf groups := by
          unfold objectTypesOf
          obtain ⟨g, hg, hgt⟩ := hC
          exact List.mem_append_left _ (List.mem_map.2 ⟨g, hg, hgt⟩)
        simp [hA, hB, hC]
      · have hB : m.ty ∉ objectTypesOf groups := by
          unfold objectTypesOf
          intro hmem
          rcases List.mem_append.1 hmem with h | h
          · obtain ⟨g, hg, hgt⟩ := List.mem_map.1 h
            exact hC ⟨g, hg, hgt⟩
          · simp only [List.mem_singleton] at h
            rcases hA with hv | hv <;> rw [hv] at h <;> exact absurd h (by decide)
        simp [hA, hB, hC]
    · simp [hA]
  · intro q hq hqe
    obtain ⟨mor, hmor, rfl⟩ := List.mem_map.1 hq
    have hm : mor = m := hqe
    rw [hm]

/-- Witness for C1 (amended) at a one-VM inventory with a matching
VirtualMachine MetricGroup. -/
theorem claim_C1_witness :
    (([⟨"VirtualMachine", "vm-1"⟩] : List Mor).filter
        (fun x => x == (⟨"VirtualMachine", "vm-1"⟩ : Mor))).length = 1 ∧
    (((cycleQueries [⟨"VirtualMachine", "vm-1"⟩]
          [⟨"VirtualMachine", [⟨"cpu.usage.average", "", 2⟩]⟩]).filter
        (fun q => q.Entity == (⟨"VirtualMachine", "vm-1"⟩ : Mor))).length =
      if (∃ g ∈ ([⟨"VirtualMachine", [⟨"cpu.usage.average", "", 2⟩]⟩] : List MetricGroup),
            g.ObjectType = (⟨"VirtualMachine", "vm-1"⟩ : Mor).ty) ∧
          ((⟨"VirtualMachine", "vm-1"⟩ : Mor).ty = "VirtualMachine" ∨
            (⟨"VirtualMachine", "vm-1"⟩ : Mor).ty = "HostSystem") then 1 else 0) ∧
    (∀ q ∈ cycleQueries [⟨"VirtualMachine", "vm-1"⟩]
        [⟨"VirtualMachine", [⟨"cpu.usage.average", "", 2⟩]⟩],
      q.Entity = (⟨"VirtualMachine", "vm-1"⟩ : Mor) →
      q.MetricId = metricIdsFor [⟨"VirtualMachine", [⟨"cpu.usage.average", "", 2⟩]⟩]
        (⟨"VirtualMachine", "vm-1"⟩ : Mor).ty) :=
  ⟨by decide, claim_C1 _ _ _ (by decide)⟩

/-! ## Lemmas about the Counter Catalog Resolver -/

theorem foldl_preserve_mem {α σ : Type} (P : σ → Prop) (f : σ → α → σ) (l : List α) :
    (∀ s a, a ∈ l → P s → P (f s a)) → ∀ s, P s → P (l.foldl f s) := by
  induction l with
  | nil => intro _ s h; exact h
  | cons a l ih =>
    intro hf s h
    exact ih (fun s' a' ha' hp => hf s' a' (List.mem_cons_of_mem _ ha') hp) _
      (hf s a (List.mem_cons_self _ _) h)

theorem foldl_reach {α σ : Type} (P : σ → Prop) (f : σ → α → σ) (l : List α) :
    (∀ s a, a ∈ l → P s → P (f s a)) →
      ∀ a0, a0 ∈ l → (∀ s, P (f s a0)) → ∀ s, P (l.foldl f s) := by
  induction l with
  | nil => intro _ a0 ha0; exact absurd ha0 (List.not_mem_nil a0)
  | cons a l ih =>
    intro hf a0 ha0 hstart s
    rcases List.mem_cons.1 ha0 with heq | ha0'
    · subst heq
      exact foldl_preserve_mem P f l
        (fun s' a' ha' hp => hf s' a' (List.mem_cons_of_mem _ ha') hp) _ (hstart s)
    · exact ih (fun s' a' ha' hp => hf s' a' (List.mem_cons_of_mem _ ha') hp) a0 ha0'
        hstart _

theorem addMetricDef_mem (gs : List MetricGroup) (t : String) (d : MetricDef) :
    GroupHas (addMetricDef gs t d) t d := by
  induction gs with
  | nil =>
    exact ⟨⟨t, [d]⟩, List.mem_singleton_self _, rfl, List.mem_singleton_self _⟩
  | cons g gs ih =>
    by_cases h : g.ObjectType = t
    · refine ⟨⟨g.ObjectType, g.Metrics ++ [d]⟩, ?_, h, ?_⟩
      · simp only [addMetricDef, if_pos h]
        exact List.mem_cons_self _ _
      · exact List.mem_append_right _ (List.mem_singleton_self d)
    · obtain ⟨g', hg', hp⟩ := ih
      refine ⟨g', ?_, hp⟩
      simp only [addMetricDef, if_neg h]
      exact List.mem_cons_of_mem _ hg'

theorem addMetricDef_mono {gs : List MetricGroup} (t' : String) (d' : MetricDef)
    {t : String} {d : MetricDef} (h : GroupHas gs t d) :
    GroupHas (addMetricDef gs t' d') t d := by
  induction gs with
  | nil =>
    obtain ⟨g, hg, _⟩ := h
    exact absurd hg (List.not_mem_nil g)
  | cons g gs ih =>
    obtain ⟨g0, hg0, hp⟩ := h
    by_cases hgt : g.ObjectType = t'
    · rcases List.mem_cons.1 hg0 with heq | hg0'
      · rw [heq] at hp
        refine ⟨⟨g.ObjectType, g.Metrics ++ [d']⟩, ?_, hp.1, List.mem_append_left _ hp.2⟩
        simp only [addMetricDef, if_pos hgt]
        exact List.mem_cons_self _ _
      · refine ⟨g0, ?_, hp⟩
        simp only [addMetricDef, if_pos hgt]
        exact List.mem_cons_of_mem _ hg0'
    · rcases List.mem_cons.1 hg0 with heq | hg0'
      · refine ⟨g0, ?_, hp⟩
        simp only [addMetricDef, if_neg hgt]
        rw [heq]
        exact List.mem_cons_self _ _
      · obtain ⟨g1, hg1, hp1⟩ := ih ⟨g0, hg0', hp⟩
        refine ⟨g1, ?_, hp1⟩
        simp only [addMetricDef, if_neg hgt]
        exact List.mem_cons_of_mem _ hg1

theorem addMetricDef_src {gs : List MetricGroup} {t : String} {d : MetricDef}
    {g' : MetricGroup} (hg : g' ∈ addMetricDef gs t d) :
    ∀ x ∈ g'.Metrics, (∃ g ∈ gs, g.ObjectType = g'.ObjectType ∧ x ∈ g.Metrics) ∨
      (x = d ∧ g'.ObjectType = t) := by
  induction gs with
  | nil =>
    simp only [addMetricDef] at hg
    rw [List.mem_singleton] at hg
    subst hg
    intro x hx
    exact Or.inr ⟨List.mem_singleton.1 hx, rfl⟩
  | cons g gs ih =>
    by_cases hgt : g.ObjectType = t
    · simp only [addMetricDef, if_pos hgt] at hg
      rcases List.mem_cons.1 hg with heq | hg'
      · subst heq
        intro x hx
        rcases List.mem_append.1 hx with hx' | hx'
        · exact Or.inl ⟨g, List.mem_cons_self _ _, rfl, hx'⟩
        · exact Or.inr ⟨List.mem_singleton.1 hx', hgt⟩
      · intro x hx
        exact Or.inl ⟨g', List.mem_cons_of_mem _ hg', rfl, hx⟩
    · simp only [addMetricDef, if_neg hgt] at hg
      rcases List.mem_cons.1 hg with heq | hg'
      · subst heq
        intro x hx
        exact Or.inl ⟨_, List.mem_cons_self _ _, rfl, hx⟩
      · intro x hx
        rcases ih hg' x hx with ⟨g0, h1, h2, h3⟩ | hr
        · exact Or.inl ⟨g0, List.mem_cons_of_mem _ h1, h2, h3⟩
        · exact Or.inr hr

theorem objectTypes_addMetricDef (gs : List MetricGroup) (t : String) (d : MetricDef) :
    (addMetricDef gs t d).map (fun g => g.ObjectType) =
      if t ∈ gs.map (fun g => g.ObjectType) then gs.map (fun g => g.ObjectType)
      else gs.map (fun g => g.ObjectType) ++ [t] := by
  induction gs with
  | nil => simp [addMetricDef]
  | cons g gs ih =>
    by_cases hgt : g.ObjectType = t
    · simp [addMetricDef, hgt]
    · have hka : ¬ t = g.ObjectType := fun hh => hgt hh.symm
      by_cases hmem : t ∈ gs.map (fun g => g.ObjectType)
      · simp [addMetricDef, hgt, ih, hmem, hka]
      · simp [addMetricDef, hgt, ih, hmem, hka]

theorem nodup_objectTypes_addMetricDef (gs : List MetricGroup) (t : String) (d : MetricDef)
    (h : (gs.map (fun g => g.ObjectType)).Nodup) :
    ((addMetricDef gs t d).map (fun g => g.ObjectType)).Nodup := by
  rw [objectTypes_addMetricDef]
  by_cases hmem : t ∈ gs.map (fun g => g.ObjectType)
  · simpa [hmem]
  · simp only [hmem, if_false]
    refine List.Nodup.append h (List.nodup_singleton t) ?_
    intro a ha
    simp only [List.mem_singleton]
    intro hat
    exact hmem (hat ▸ ha)

theorem addForTypes_mono (mtypes : List String) (d' : MetricDef) {t : String}
    {d : MetricDef} (gs : List MetricGroup) (h : GroupHas gs t d) :
    GroupHas (addForTypes gs mtypes d') t d :=
  foldl_preserve_mem (fun gs => GroupHas gs t d) (fun gs t0 => addMetricDef gs t0 d')
    mtypes (fun _ a _ hp => addMetricDef_mono a d' hp) gs h

theorem addForTypes_has (mtypes : List String) (d : MetricDef) {t : String}
    (ht : t ∈ mtypes) (gs : List MetricGroup) : GroupHas (addForTypes gs mtypes d) t d :=
  foldl_reach (fun gs => GroupHas gs t d) (fun gs t0 => addMetricDef gs t0 d) mtypes
    (fun _ a _ hp => addMetricDef_mono a d hp) t ht (fun s => addMetricDef_mem s t d) gs

theorem addPerfMetric_mono (p : PerfCounterInfo) (m : Metric) {t : String}
    {d : MetricDef} (gs : List MetricGroup) (h : GroupHas gs t d) :
    GroupHas (addPerfMetric gs p m) t d := by
  refine foldl_preserve_mem (fun gs => GroupHas gs t d)
    (fun gs d1 =>
      if d1.Metric = identifier p then addForTypes gs m.ObjectType ⟨d1.Metric, d1.Instances, p.Key⟩
      else gs)
    m.Definition ?_ gs h
  intro s a _ hp
  dsimp only
  by_cases hc : a.Metric = identifier p
  · rw [if_pos hc]
    exact addForTypes_mono _ _ _ hp
  · rw [if_neg hc]
    exact hp

theorem initGroups_has (catalog : List PerfCounterInfo) (metrics : List Metric)
    {p : PerfCounterInfo} {m : Metric} {d0 : MetricDef} {t : String}
    (hp : p ∈ catalog) (hm : m ∈ metrics) (hd0 : d0 ∈ m.Definition)
    (hmatch : d0.Metric = identifier p) (ht : t ∈ m.ObjectType) :
    GroupHas (initGroups catalog metrics) t ⟨d0.Metric, d0.Instances, p.Key⟩ := by
  refine foldl_reach (fun gs => GroupHas gs t ⟨d0.Metric, d0.Instances, p.Key⟩)
    (fun gs p' => metrics.foldl (fun gs m' => addPerfMetric gs p' m') gs) catalog
    ?_ p hp ?_ []
  · intro s p' _ hps
    exact foldl_preserve_mem (fun gs => GroupHas gs t ⟨d0.Metric, d0.Instances, p.Key⟩)
      (fun gs m' => addPerfMetric gs p' m') metrics
      (fun s' m' _ hp' => addPerfMetric_mono p' m' s' hp') s hps
  · intro s
    dsimp only
    refine foldl_reach (fun gs => GroupHas gs t ⟨d0.Metric, d0.Instances, p.Key⟩)
      (fun gs m' => addPerfMetric gs p m') metrics
      (fun s' m' _ hp' => addPerfMetric_mono p m' s' hp') m hm ?_ s
    intro s'
    show GroupHas
      (List.foldl
        (fun gs d1 =>
          if d1.Metric = identifier p then
            addForTypes gs m.ObjectType ⟨d1.Metric, d1.Instances, p.Key⟩
          else gs)
        s' m.Definition)
      t ⟨d0.Metric, d0.Instances, p.Key⟩
    refine foldl_reach (fun gs => GroupHas gs t ⟨d0.Metric, d0.Instances, p.Key⟩)
      (fun gs d1 =>
        if d1.Metric = identifier p then
          addForTypes gs m.ObjectType ⟨d1.Metric, d1.Instances, p.Key⟩
        else gs)
      m.Definition ?_ d0 hd0 ?_ s'
    · intro s'' a _ hp''
      dsimp only
      by_cases hc : a.Metric = identifier p
      · rw [if_pos hc]
        exact addForTypes_mono _ _ _ hp''
      · rw [if_neg hc]
        exact hp''
    · intro s''
      dsimp only
      rw [if_pos hmatch]
      exact addForTypes_has m.ObjectType _ ht s''

theorem addForTypes_sound {catalog : List PerfCounterInfo} {metrics : List Metric}
    {p : PerfCounterInfo} {m : Metric} (hp : p ∈ catalog) (hm : m ∈ metrics)
    {d0 : MetricDef} (hd0 : d0 ∈ m.Definition) (hmatch : d0.Metric = identifier p)
    (gs : List MetricGroup)
    (h : ∀ g ∈ gs, ∀ d ∈ g.Metrics, ResolvedFrom catalog metrics g.ObjectType d) :
    ∀ g ∈ addForTypes gs m.ObjectType ⟨d0.Metric, d0.Instances, p.Key⟩, ∀ d ∈ g.Metrics,
      ResolvedFrom catalog metrics g.ObjectType d := by
  refine foldl_preserve_mem
    (fun gs => ∀ g ∈ gs, ∀ d ∈ g.Metrics, ResolvedFrom catalog metrics g.ObjectType d)
    (fun gs t0 => addMetricDef gs t0 ⟨d0.Metric, d0.Instances, p.Key⟩)
    m.ObjectType ?_ gs h
  intro s t0 ht0 hs
  dsimp only
  intro g hg d hd
  rcases addMetricDef_src hg d hd with ⟨g1, h1, h2, h3⟩ | ⟨hde, hto⟩
  · have hres := hs g1 h1 d h3
    rw [h2] at hres
    exact hres
  · exact ⟨p, hp, m, hm, d0, hd0, hmatch, by rw [hto]; exact ht0, hde⟩

theorem addPerfMetric_sound {catalog : List PerfCounterInfo} {metrics : List Metric}
    {p : PerfCounterInfo} (hp : p ∈ catalog) (m : Metric) (hm : m ∈ metrics)
    (gs : List MetricGroup)
    (h : ∀ g ∈ gs, ∀ d ∈ g.Metrics, ResolvedFrom catalog metrics g.ObjectType d) :
    ∀ g ∈ addPerfMetric gs p m, ∀ d ∈ g.Metrics,
      ResolvedFrom catalog metrics g.ObjectType d := by
  refine foldl_preserve_mem
    (fun gs => ∀ g ∈ gs, ∀ d ∈ g.Metrics, ResolvedFrom catalog metrics g.ObjectType d)
    (fun gs d1 =>
      if d1.Metric = identifier p then addForTypes gs m.ObjectType ⟨d1.Metric, d1.Instances, p.Key⟩
      else gs)
    m.Definition ?_ gs h
  intro s d1 hd1 hs
  dsimp only
  by_cases hc : d1.Metric = identifier p
  · rw [if_pos hc]
    exact addForTypes_sound hp hm hd1 hc s hs
  · rw [if_neg hc]
    exact hs

theorem initGroups_src (catalog : List PerfCounterInfo) (metrics : List Metric) :
    ∀ g ∈ initGroups catalog metrics, ∀ d ∈ g.Metrics,
      ResolvedFrom catalog metrics g.ObjectType d := by
  refine foldl_preserve_mem
    (fun gs => ∀ g ∈ gs, ∀ d ∈ g.Metrics, ResolvedFrom catalog metrics g.ObjectType d)
    (fun gs p => metrics.foldl (fun gs m => addPerfMetric gs p m) gs) catalog ?_ [] ?_
  · intro s p hp hs
    exact foldl_preserve_mem
      (fun gs => ∀ g ∈ gs, ∀ d ∈ g.Metrics, ResolvedFrom catalog metrics g.ObjectType d)
      (fun gs m => addPerfMetric gs p m) metrics
      (fun s' m hm hs' => addPerfMetric_sound hp m hm s' hs') s hs
  · intro g hg
    exact absurd hg (List.not_mem_nil g)

theorem initGroups_nodup (catalog : List PerfCounterInfo) (metrics : List Metric) :
    ((initGroups catalog metrics).map (fun g => g.ObjectType)).Nodup := by
  refine foldl_preserve_mem (fun gs => (gs.map (fun g => g.ObjectType)).Nodup)
    (fun gs p => metrics.foldl (fun gs m => addPerfMetric gs p m) gs) catalog ?_ []
    (by simp)
  intro s p _ hs
  dsimp only
  refine foldl_preserve_mem (fun gs => (gs.map (fun g => g.ObjectType)).Nodup)
    (fun gs m => addPerfMetric gs p m) metrics ?_ s hs
  intro s' m _ hs'
  show ((List.foldl
      (fun gs d1 =>
        if d1.Metric = identifier p then
          addForTypes gs m.ObjectType ⟨d1.Metric, d1.Instances, p.Key⟩
        else gs)
      s' m.Definition).map (fun g => g.ObjectType)).Nodup
  refine foldl_preserve_mem (fun gs => (gs.map (fun g => g.ObjectType)).Nodup)
    (fun gs d1 =>
      if d1.Metric = identifier p then addForTypes gs m.ObjectType ⟨d1.Metric, d1.Instances, p.Key⟩
      else gs)
    m.Definition ?_ s' hs'
  intro s'' d1 _ hs''
  dsimp only
  by_cases hc : d1.Metric = identifier p
  · rw [if_pos hc]
    refine foldl_preserve_mem (fun gs => (gs.map (fun g => g.ObjectType)).Nodup)
      (fun gs t0 => addMetricDef gs t0 ⟨d1.Metric, d1.Instances, p.Key⟩)
      m.ObjectType ?_ s'' hs''
    intro s3 t0 _ hs3
    exact nodup_objectTypes_addMetricDef s3 t0 _ hs3
  · rw [if_neg hc]
    exact hs''

/-- C7: every catalog entry whose composite identifier equals a declared
metric's name yields a resolved MetricDef (entry's counter id, metric's
instance selector) in the MetricGroup of each declared object type (the group
created when absent — object types are unique across groups); every resolved
definition in any group arises from such a match, so a declared metric
matching no catalog entry contributes nothing and raises no error. -/
theorem claim_C7 (catalog : List PerfCounterInfo) (metrics : List Metric) :
    (∀ p ∈ catalog, ∀ m ∈ metrics, ∀ d0 ∈ m.Definition, d0.Metric = identifier p →
      ∀ t ∈ m.ObjectType,
        GroupHas (initGroups catalog metrics) t ⟨d0.Metric, d0.Instances, p.Key⟩) ∧
    (∀ g ∈ initGroups catalog metrics, ∀ d ∈ g.Metrics,
      ResolvedFrom catalog metrics g.ObjectType d) ∧
    (∀ m ∈ metrics, ∀ d0 ∈ m.Definition, (∀ p ∈ catalog, d0.Metric ≠ identifier p) →
      ∀ g ∈ initGroups catalog metrics, ∀ d ∈ g.Metrics, d.Metric ≠ d0.Metric) ∧
    ((initGroups catalog metrics).map (fun g => g.ObjectType)).Nodup := by
  refine ⟨?_, initGroups_src catalog metrics, ?_, initGroups_nodup catalog metrics⟩
  · intro p hp m hm d0 hd0 hmatch t ht
    exact initGroups_has catalog metrics hp hm hd0 hmatch ht
  · intro m hm d0 hd0 hnone g hg d hd heq
    obtain ⟨p, hp, m', hm', d0', hd0', hmatch', _, hde⟩ :=
      initGroups_src catalog metrics g hg d hd
    apply hnone p hp
    rw [← heq, hde]
    exact hmatch'

/-- Witness for C7 at a one-entry catalog and a one-metric declaration that
match. -/
theorem claim_C7_witness :
    (⟨"cpu", "usage", "average", 2⟩ : PerfCounterInfo) ∈ catalogW ∧
    (⟨["VirtualMachine"], [⟨"cpu.usage.average", "", 0⟩]⟩ : Metric) ∈ metricsW ∧
    (⟨"cpu.usage.average", "", 0⟩ : MetricDef) ∈
      (⟨["VirtualMachine"], [⟨"cpu.usage.average", "", 0⟩]⟩ : Metric).Definition ∧
    "cpu.usage.average" = identifier ⟨"cpu", "usage", "average", 2⟩ ∧
    "VirtualMachine" ∈ (⟨["VirtualMachine"], [⟨"cpu.usage.average", "", 0⟩]⟩ : Metric).ObjectType ∧
    GroupHas (initGroups catalogW metricsW) "VirtualMachine"
      ⟨"cpu.usage.average", "", 2⟩ :=
  ⟨by decide, by decide, by decide, by decide, by decide,
    (claim_C7 catalogW metricsW).1 ⟨"cpu", "usage", "average", 2⟩ (by decide)
      ⟨["VirtualMachine"], [⟨"cpu.usage.average", "", 0⟩]⟩ (by decide)
      ⟨"cpu.usage.average", "", 0⟩ (by decide) (by decide) "VirtualMachine" (by decide)⟩

/-! ## Lemmas about the per-entity series loop -/

theorem serieStep_cases {mtn : List (Int × String)} {tags : List (String × String)}
    {st : QueryState} {s : Serie} {st' : QueryState}
    (hstep : serieStep mtn tags st s = some st') :
    (finalInstanceOf mtn s = "" ∧ ∃ v, serieValue (metricNameOf mtn s) s.Value = some v ∧
      st' = ⟨setA st.fields (influxNameOf mtn s) v, st.special_fields, st.special_tags⟩) ∨
    (finalInstanceOf mtn s ≠ "" ∧ ∃ v, serieValue (metricNameOf mtn s) s.Value = some v ∧
      st' = ⟨st.fields,
        setA st.special_fields (keyOf mtn tags s)
          (setA ((getA st.special_fields (keyOf mtn tags s)).getD [])
            (influxNameOf mtn s) v),
        setA st.special_tags (keyOf mtn tags s)
          (setA (insertTags ((getA st.special_tags (keyOf mtn tags s)).getD []) tags)
            "instance" (finalInstanceOf mtn s))⟩) := by
  cases hv : serieValue (metricNameOf mtn s) s.Value with
  | none =>
    simp only [serieStep, hv] at hstep
    exact Option.noConfusion hstep
  | some v =>
    by_cases hfi : finalInstanceOf mtn s = ""
    · left
      refine ⟨hfi, v, rfl, ?_⟩
      have h2 : serieStep mtn tags st s =
          some ⟨setA st.fields (influxNameOf mtn s) v, st.special_fields, st.special_tags⟩ := by
        simp [serieStep, hv, hfi]
      rw [h2] at hstep
      exact (Option.some.inj hstep).symm
    · right
      refine ⟨hfi, v, rfl, ?_⟩
      have h2 : serieStep mtn tags st s =
          some ⟨st.fields,
            setA st.special_fields (keyOf mtn tags s)
              (setA ((getA st.special_fields (keyOf mtn tags s)).getD [])
                (influxNameOf mtn s) v),
            setA st.special_tags (keyOf mtn tags s)
              (setA (insertTags ((getA st.special_tags (keyOf mtn tags s)).getD []) tags)
                "instance" (finalInstanceOf mtn s))⟩ := by
        simp [serieStep, hv, hfi]
      rw [h2] at hstep
      exact (Option.some.inj hstep).symm

theorem serieStep_preserveSpecial {mtn : List (Int × String)}
    {tags : List (String × String)} {st : QueryState} {s : Serie} {st' : QueryState}
    (hstep : serieStep mtn tags st s = some st') (k : SKey) (nm : String)
    (h : SpecialAt k nm st) : SpecialAt k nm st' := by
  obtain ⟨⟨fm, hfm, hnm⟩, ⟨tg, htg, hinst⟩⟩ := h
  rcases serieStep_cases hstep with ⟨hfi, v, hv, rfl⟩ | ⟨hfi, v, hv, rfl⟩
  · exact ⟨⟨fm, hfm, hnm⟩, ⟨tg, htg, hinst⟩⟩
  · by_cases hk : keyOf mtn tags s = k
    · subst hk
      constructor
      · refine ⟨setA ((getA st.special_fields (keyOf mtn tags s)).getD [])
          (influxNameOf mtn s) v, getA_setA_self _ _ _, ?_⟩
        rw [hfm, Option.getD_some]
        exact getA_setA_isSome _ _ _ _ hnm
      · refine ⟨setA (insertTags ((getA st.special_tags (keyOf mtn tags s)).getD []) tags)
          "instance" (finalInstanceOf mtn s), getA_setA_self _ _ _, ?_⟩
        rw [getA_setA_self]
        rfl
    · constructor
      · refine ⟨fm, ?_, hnm⟩
        rw [getA_setA_ne _ _ _ _ (fun hh => hk hh.symm)]
        exact hfm
      · refine ⟨tg, ?_, hinst⟩
        rw [getA_setA_ne _ _ _ _ (fun hh => hk hh.symm)]
        exact htg

theorem serieStep_establish {mtn : List (Int × String)}
    {tags : List (String × String)} {st : QueryState} {s : Serie} {st' : QueryState}
    (hstep : serieStep mtn tags st s = some st') (hne : finalInstanceOf mtn s ≠ "") :
    SpecialAt (keyOf mtn tags s) (influxNameOf mtn s) st' := by
  rcases serieStep_cases hstep with ⟨hfi, _, _, rfl⟩ | ⟨hfi, v, hv, rfl⟩
  · exact absurd hfi hne
  · constructor
    · refine ⟨_, getA_setA_self _ _ _, ?_⟩
      rw [getA_setA_self]
      rfl
    · refine ⟨_, getA_setA_self _ _ _, ?_⟩
      rw [getA_setA_self]
      rfl

theorem processSeries_preserve (mtn : List (Int × String))
    (tags : List (String × String)) (P : QueryState → Prop)
    (hstep : ∀ st s st', serieStep mtn tags st s = some st' → P st → P st')
    (l : List Serie) :
    ∀ st0 st, processSeries mtn tags st0 l = some st → P st0 → P st := by
  induction l with
  | nil =>
    intro st0 st h hp
    simp only [processSeries] at h
    have heq := Option.some.inj h
    subst heq
    exact hp
  | cons s rest ih =>
    intro st0 st h hp
    cases hs : serieStep mtn tags st0 s with
    | none =>
      simp only [processSeries, hs] at h
      exact Option.noConfusion h
    | some st1 =>
      simp only [processSeries, hs] at h
      exact ih st1 st h (hstep st0 s st1 hs hp)

theorem processSeries_special (mtn : List (Int × String))
    (tags : List (String × String)) (l : List Serie) :
    ∀ st0 st, processSeries mtn tags st0 l = some st →
      ∀ s ∈ l, finalInstanceOf mtn s ≠ "" →
        SpecialAt (keyOf mtn tags s) (influxNameOf mtn s) st := by
  induction l with
  | nil =>
    intro st0 st _ s hs
    exact absurd hs (List.not_mem_nil s)
  | cons s0 rest ih =>
    intro st0 st h s hs hne
    cases hstep : serieStep mtn tags st0 s0 with
    | none =>
      simp only [processSeries, hstep] at h
      exact Option.noConfusion h
    | some st1 =>
      simp only [processSeries, hstep] at h
      rcases List.mem_cons.1 hs with heq | hs'
      · subst heq
        exact processSeries_preserve mtn tags
          (SpecialAt (keyOf mtn tags s) (influxNameOf mtn s))
          (fun st2 s2 st2' hst hp => serieStep_preserveSpecial hst _ _ hp)
          rest st1 st h (serieStep_establish hstep hne)
      · exact ih st1 st h s hs' hne

theorem processSeries_fields (mtn : List (Int × String))
    (tags : List (String × String)) (l : List Serie) :
    ∀ st0 st, processSeries mtn tags st0 l = some st →
      fieldsOnly mtn st0.fields (l.filter (fun s => finalInstanceOf mtn s == "")) =
        some st.fields := by
  induction l with
  | nil =>
    intro st0 st h
    simp only [processSeries] at h
    have heq := Option.some.inj h
    subst heq
    rfl
  | cons s rest ih =>
    intro st0 st h
    cases hs : serieStep mtn tags st0 s with
    | none =>
      simp only [processSeries, hs] at h
      exact Option.noConfusion h
    | some st1 =>
      simp only [processSeries, hs] at h
      rcases serieStep_cases hs with ⟨hfi, v, hv, rfl⟩ | ⟨hfi, v, hv, rfl⟩
      · rw [filter_cons_pos (fun s' => finalInstanceOf mtn s' == "") s rest (by simp [hfi])]
        simp only [fieldsOnly, hv]
        exact ih _ _ h
      · rw [filter_cons_neg (fun s' => finalInstanceOf mtn s' == "") s rest (by simp [hfi])]
        exact ih
          ⟨st0.fields,
            setA st0.special_fields (keyOf mtn tags s)
              (setA ((getA st0.special_fields (keyOf mtn tags s)).getD [])
                (influxNameOf mtn s) v),
            setA st0.special_tags (keyOf mtn tags s)
              (setA (insertTags ((getA st0.special_tags (keyOf mtn tags s)).getD []) tags)
                "instance" (finalInstanceOf mtn s))⟩
          st h

theorem processSeries_keys (mtn : List (Int × String))
    (tags : List (String × String)) (l : List Serie) :
    ∀ st0 st, processSeries mtn tags st0 l = some st →
      ∀ k ∈ st.special_fields.map Prod.fst,
        k ∈ st0.special_fields.map Prod.fst ∨
        ∃ s ∈ l, finalInstanceOf mtn s ≠ "" ∧ keyOf mtn tags s = k := by
  induction l with
  | nil =>
    intro st0 st h k hk
    simp only [processSeries] at h
    have heq := Option.some.inj h
    subst heq
    exact Or.inl hk
  | cons s rest ih =>
    intro st0 st h k hk
    cases hs : serieStep mtn tags st0 s with
    | none =>
      simp only [processSeries, hs] at h
      exact Option.noConfusion h
    | some st1 =>
      simp only [processSeries, hs] at h
      rcases ih st1 st h k hk with hk1 | ⟨s', hs', h1, h2⟩
      · rcases serieStep_cases hs with ⟨hfi, v, hv, rfl⟩ | ⟨hfi, v, hv, rfl⟩
        · exact Or.inl hk1
        · rcases mem_keys_setA hk1 with hk2 | hk2
          · exact Or.inl hk2
          · exact Or.inr ⟨s, List.mem_cons_self _ _, hfi, hk2.symm⟩
      · exact Or.inr ⟨s', List.mem_cons_of_mem _ hs', h1, h2⟩

theorem processSeries_nodup (mtn : List (Int × String))
    (tags : List (String × String)) (l : List Serie) (st0 st : QueryState)
    (h : processSeries mtn tags st0 l = some st)
    (h0 : (st0.special_fields.map Prod.fst).Nodup) :
    (st.special_fields.map Prod.fst).Nodup :=
  processSeries_preserve mtn tags (fun q => (q.special_fields.map Prod.fst).Nodup)
    (fun st1 s st1' hstep hp => by
      rcases serieStep_cases hstep with ⟨_, _, _, rfl⟩ | ⟨_, _, _, rfl⟩
      · exact hp
      · exact nodup_keys_setA _ _ _ hp)
    l st0 st h h0

/-- C4: in a polling cycle, a value with non-empty (post-override) instance is
never merged into the entity-level field map — those fields come from the
empty-instance series alone; every non-empty-instance series lands in the
single per-instance field map under its (measurement, name tag, instance) key,
whose tag map carries an `instance` tag, and yields its own point; per-instance
keys are unique and only arise from such series. -/
theorem claim_C4 (mtn : List (Int × String)) (tags : List (String × String))
    (series : List Serie) (st : QueryState)
    (h : processSeries mtn tags stEmpty series = some st) :
    (fieldsOnly mtn [] (series.filter (fun s => finalInstanceOf mtn s == "")) =
      some st.fields) ∧
    (∀ s ∈ series, finalInstanceOf mtn s ≠ "" →
      SpecialAt (keyOf mtn tags s) (influxNameOf mtn s) st) ∧
    (∀ s ∈ series, finalInstanceOf mtn s ≠ "" →
      ∃ pt ∈ specialPoints st, pt.measurement = measurementOf mtn s ∧
        getA pt.tags "instance" = some (finalInstanceOf mtn s) ∧
        (getA pt.fields (influxNameOf mtn s)).isSome = true) ∧
    ((st.special_fields.map Prod.fst).Nodup) ∧
    (∀ k ∈ st.special_fields.map Prod.fst,
      ∃ s ∈ series, finalInstanceOf mtn s ≠ "" ∧ keyOf mtn tags s = k) := by
  have hfields := processSeries_fields mtn tags series stEmpty st h
  have hspec := processSeries_special mtn tags series stEmpty st h
  refine ⟨hfields, hspec, ?_,
    processSeries_nodup mtn tags series stEmpty st h (by simp [stEmpty]), ?_⟩
  · intro s hs hne
    obtain ⟨⟨fm, hfm, hnm⟩, ⟨tg, htg, hinst⟩⟩ := hspec s hs hne
    refine ⟨⟨(keyOf mtn tags s).1,
      (getA st.special_tags (keyOf mtn tags s)).getD [], fm⟩, ?_, rfl, ?_, hnm⟩
    · exact List.mem_map.2 ⟨(keyOf mtn tags s, fm), getA_mem hfm, rfl⟩
    · rw [htg, Option.getD_some]
      exact hinst
  · intro k hk
    rcases processSeries_keys mtn tags series stEmpty st h k hk with hk0 | hgood
    · simp [stEmpty] at hk0
    · exact hgood

/-- Witness for C4: a single per-instance series (instance "scsi0") processed
from the empty state. -/
theorem claim_C4_witness :
    processSeries mtnEx tagsEx stEmpty [serieInst] = some stW4 ∧
    ((fieldsOnly mtnEx []
        (([serieInst]).filter (fun s => finalInstanceOf mtnEx s == "")) =
      some stW4.fields) ∧
    (∀ s ∈ [serieInst], finalInstanceOf mtnEx s ≠ "" →
      SpecialAt (keyOf mtnEx tagsEx s) (influxNameOf mtnEx s) stW4) ∧
    (∀ s ∈ [serieInst], finalInstanceOf mtnEx s ≠ "" →
      ∃ pt ∈ specialPoints stW4, pt.measurement = measurementOf mtnEx s ∧
        getA pt.tags "instance" = some (finalInstanceOf mtnEx s) ∧
        (getA pt.fields (influxNameOf mtnEx s)).isSome = true) ∧
    ((stW4.special_fields.map Prod.fst).Nodup) ∧
    (∀ k ∈ stW4.special_fields.map Prod.fst,
      ∃ s ∈ [serieInst], finalInstanceOf mtnEx s ≠ "" ∧ keyOf mtnEx tagsEx s = k)) :=
  ⟨by decide, claim_C4 mtnEx tagsEx [serieInst] stW4 (by decide)⟩

end Vsphere
